import Mathlib

/-!
Verification of the amino-acid alignment viewer core (`src/App.tsx`):
the chunk-partitioning loop, the responsive chunk-size computation, the
amino-acid color map, the mismatch highlight and the copy-selection
handler, shallowly embedded over lists of characters.
-/

namespace Bcd

/-- The fixed amino-acid color scheme (`COLOR_MAP` in `App.tsx`, lines
18–39), as the association list of its record entries in source order. -/
def COLOR_MAP : List (Char × String) :=
  [('C', "#FFEA00"), ('G', "#C4C4C4"), ('D', "#FC9CAC"), ('E', "#FC9CAC"),
   ('K', "#BB99FF"), ('R', "#BB99FF"), ('S', "#80BFFF"), ('T', "#80BFFF"),
   ('H', "#80BFFF"), ('Q', "#80BFFF"), ('N', "#80BFFF"), ('A', "#67E4A6"),
   ('I', "#67E4A6"), ('L', "#67E4A6"), ('M', "#67E4A6"), ('F', "#67E4A6"),
   ('W', "#67E4A6"), ('Y', "#67E4A6"), ('V', "#67E4A6"), ('P', "#67E4A6")]

/-- Background color of a first-sequence character:
`COLOR_MAP[char] || "transparent"` (`App.tsx` line 118). A key absent
from the record yields `undefined`, so `||` falls back to
`"transparent"`; every value in the map is a non-empty string, so the
fallback fires exactly on absent keys. -/
def colorForSeq1Char (c : Char) : String :=
  match COLOR_MAP.lookup c with
  | some col => col
  | none => "transparent"

/-- The 20 standard amino-acid letters: the keys of `COLOR_MAP`, equally
the letters admitted by `AMINO_REGEX` besides the gap symbol. -/
def standardAminoAcids : List Char :=
  ['A', 'R', 'N', 'D', 'C', 'E', 'Q', 'G', 'H', 'I',
   'L', 'K', 'M', 'F', 'P', 'S', 'T', 'W', 'Y', 'V']

/-- Per-character rendered width in pixels: the literal `19` in
`Math.floor(width / 19)` (`App.tsx` line 71). -/
def perCharWidthPx : Nat := 19

/-- The chunk-size computation `Math.floor(width / 19)` (`App.tsx` line
71); `clientWidth` is a non-negative integer, so `Nat` division is
exactly this floor. -/
def newChunkSize (width : Nat) : Nat := width / perCharWidthPx

/-- The functional state update
`(prev) => (prev !== newChunkSize ? newChunkSize : prev)` passed to
`setChunkSize` in `updateChunkSize` (`App.tsx` line 72). -/
def updateChunkSize (width prev : Nat) : Nat :=
  if prev ≠ newChunkSize width then newChunkSize width else prev

/-- The mismatch comparison `s2[i] !== s1[i]` (`App.tsx` line 131);
JavaScript indexing out of range yields `undefined`, modelled by
`none`. -/
def mismatchFlag (s1 s2 : List Char) (i : Nat) : Bool := s2[i]? != s1[i]?

/-- One run of the chunking loop (`App.tsx` lines 88–91):
`for (let i = 0; i < seq1.length; i += chunkSize)` pushing
`[seq1.slice(i, i + chunkSize), seq2.slice(i, i + chunkSize)]`, with
`seq.slice(i, i + chunkSize)` embedded as `(seq.drop i).take chunkSize`.
The loop does not structurally terminate (with `chunkSize = 0` the index
never advances), so it is driven by explicit fuel; `none` means the loop
has not finished within `fuel` iterations. -/
def chunkLoopFuel (seq1 seq2 : List Char) (chunkSize : Nat) :
    Nat → Nat → List (List Char × List Char) → Option (List (List Char × List Char))
  | 0, _, _ => none
  | fuel + 1, i, acc =>
    if i < seq1.length then
      chunkLoopFuel seq1 seq2 chunkSize fuel (i + chunkSize)
        (acc ++ [((seq1.drop i).take chunkSize, (seq2.drop i).take chunkSize)])
    else some acc

/-- The `chunks` array computed by `AlignmentBlock` (`App.tsx` lines
88–91): the loop started at `i = 0` with an empty accumulator, given
enough fuel for every terminating execution (a positive `chunkSize`
advances `i` by at least 1 per iteration, so `seq1.length + 1` steps
always suffice; `none` therefore means the loop diverges). -/
def chunksOf (seq1 seq2 : List Char) (chunkSize : Nat) :
    Option (List (List Char × List Char)) :=
  chunkLoopFuel seq1 seq2 chunkSize (seq1.length + 1) 0 []

/-- Structural characterization of the chunking loop for the positive
chunk size `n + 1`: peel `n + 1` characters off both sequences per step
(`(c :: cs).drop (n + 1) = cs.drop n`). Proved equal to `chunksOf` in
`chunksOf_eq_partitionPos`. -/
def partitionPos (n : Nat) : List Char → List Char → List (List Char × List Char)
  | [], _ => []
  | c :: cs, s2 =>
    ((c :: cs).take (n + 1), s2.take (n + 1)) :: partitionPos n (cs.drop n) (s2.drop (n + 1))
  termination_by s1 _ => s1.length
  decreasing_by simp; omega

/-- Observable effects of the copy handler: what is written to the
clipboard, if anything, and whether `onCopy` is signalled. -/
structure CopyEffect where
  clipboardWrite : Option (List Char)
  copied : Bool
deriving DecidableEq

/-- Stripping of line breaks:
`window.getSelection()?.toString().replace(/\n/g, "")`
(`App.tsx` line 95). -/
def stripNewlines (s : List Char) : List Char := s.filter (fun c => c ≠ '\n')

/-- The copy handler `handleMouseUp` (`App.tsx` lines 94–100): strip the
newlines from the selection; if the result is non-empty (JavaScript
truthiness of a string), write it to the clipboard and call `onCopy`;
otherwise do nothing. -/
def handleMouseUp (selection : List Char) : CopyEffect :=
  if stripNewlines selection ≠ [] then ⟨some (stripNewlines selection), true⟩
  else ⟨none, false⟩

/-- C5: the chunk-size computation returns `floor(width / 19)` with 19
the fixed per-character width constant: the result times 19 never
exceeds the width, one more column would overflow it, and a width of 0
yields 0. -/
theorem newChunkSize_floor_div (w : Nat) :
    newChunkSize w = w / 19 ∧
    perCharWidthPx * newChunkSize w ≤ w ∧
    w < perCharWidthPx * (newChunkSize w + 1) ∧
    newChunkSize 0 = 0 := by
  refine ⟨rfl, ?_, ?_, rfl⟩ <;>
    simp only [newChunkSize, perCharWidthPx] <;> omega

/-- C9: when the recomputed chunk size equals the current one, the state
updater returns the current state itself (idempotent no-op). -/
theorem updateChunkSize_noop (width prev : Nat) (h : newChunkSize width = prev) :
    updateChunkSize width prev = prev := by
  simp [updateChunkSize, h]

/-- Witness for C9 at width 57 and current chunk size 3. -/
theorem updateChunkSize_noop_witness : updateChunkSize 57 3 = 3 :=
  updateChunkSize_noop 57 3 (by decide)

/-- C8: when the selection is empty after stripping line breaks, the
copy handler writes nothing to the clipboard and raises no
notification. -/
theorem handleMouseUp_noop_on_empty (selection : List Char)
    (h : stripNewlines selection = []) :
    (handleMouseUp selection).clipboardWrite = none ∧
    (handleMouseUp selection).copied = false := by
  simp [handleMouseUp, h]

/-- Witness for C8: a selection holding a lone newline yields no
clipboard write and no notification. -/
theorem handleMouseUp_noop_on_empty_witness :
    (handleMouseUp ['\n']).clipboardWrite = none ∧
    (handleMouseUp ['\n']).copied = false :=
  handleMouseUp_noop_on_empty ['\n'] (by decide)

/-- C7: whenever the copy handler writes to the clipboard, the written
content is the selection with every line-break character removed; in
particular it contains no line break. -/
theorem handleMouseUp_strips_newlines (selection w : List Char)
    (h : (handleMouseUp selection).clipboardWrite = some w) :
    w = stripNewlines selection ∧ '\n' ∉ w := by
  have hw : w = stripNewlines selection := by
    by_cases hs : stripNewlines selection = []
    · simp [handleMouseUp, hs] at h
    · simp [handleMouseUp, hs] at h
      exact h.symm
  subst hw
  refine ⟨rfl, ?_⟩
  simp [stripNewlines]

/-- Witness for C7: copying the selection "AC\nDE" writes exactly
"ACDE", with the embedded line break gone. -/
theorem handleMouseUp_strips_newlines_witness :
    (handleMouseUp ['A', 'C', '\n', 'D', 'E']).clipboardWrite = some ['A', 'C', 'D', 'E'] ∧
    (['A', 'C', 'D', 'E'] = stripNewlines ['A', 'C', '\n', 'D', 'E'] ∧
      '\n' ∉ ['A', 'C', 'D', 'E']) :=
  ⟨by decide,
   handleMouseUp_strips_newlines ['A', 'C', '\n', 'D', 'E'] ['A', 'C', 'D', 'E'] (by decide)⟩

/-- C10: with both input strings empty the partition loop terminates at
once with the empty chunk list for every chunk size, 0 included: the
loop guard `i < seq1.length` fails immediately, so a single fuel step
suffices and no loop body ever runs. -/
theorem chunksOf_nil_nil (n : Nat) :
    chunksOf [] [] n = some [] ∧
    ∀ fuel acc, chunkLoopFuel [] [] n (fuel + 1) 0 acc = some acc := by
  constructor
  · simp [chunksOf, chunkLoopFuel]
  · intro fuel acc
    simp [chunkLoopFuel]

/-- C4 is refuted by the code: with chunk size 0 and the non-empty input
pair "A"/"A", the partition loop never terminates — it returns `none`
for every amount of fuel, since `i += 0` never advances the index — and
in particular the `chunksOf` run comes back exhausted. -/
theorem chunkLoop_diverges_at_zero :
    (∀ fuel acc, chunkLoopFuel ['A'] ['A'] 0 fuel 0 acc = none) ∧
    chunksOf ['A'] ['A'] 0 = none := by
  have key : ∀ fuel acc, chunkLoopFuel ['A'] ['A'] 0 fuel 0 acc = none := by
    intro fuel
    induction fuel with
    | zero => intro acc; rfl
    | succ k ih =>
      intro acc
      simpa [chunkLoopFuel] using ih _
  exact ⟨key, key _ _⟩

/-- Unfolding of `partitionPos` on a non-empty first sequence, phrased
with `drop (n + 1)` on both sequences. -/
theorem partitionPos_cons (n : Nat) (s1 s2 : List Char) (h : s1 ≠ []) :
    partitionPos n s1 s2 =
      (s1.take (n + 1), s2.take (n + 1)) ::
        partitionPos n (s1.drop (n + 1)) (s2.drop (n + 1)) := by
  cases s1 with
  | nil => exact absurd rfl h
  | cons c cs => simp [partitionPos]

/-- Number of chunks produced by `partitionPos`: the ceiling of the
sequence length divided by the chunk size `n + 1`. -/
theorem partitionPos_length (n : Nat) (s1 s2 : List Char) :
    (partitionPos n s1 s2).length = (s1.length + n) / (n + 1) := by
  induction s1, s2 using partitionPos.induct n with
  | case1 s2 => simp [partitionPos, Nat.div_eq_of_lt]
  | case2 c cs s2 ih =>
    rw [partitionPos]
    simp only [List.length_cons, ih, List.length_drop]
    by_cases hle : cs.length ≤ n
    · have h1 : cs.length - n = 0 := by omega
      have h2 : n / (n + 1) = 0 := Nat.div_eq_of_lt (by omega)
      have h5 : (cs.length + 1 + n) / (n + 1) = 1 :=
        Nat.div_eq_of_lt_le (by omega) (by omega)
      rw [h1, Nat.zero_add, h2, h5]
    · have h3 : cs.length - n + n = cs.length := by omega
      have h4 : cs.length + 1 + n = cs.length + (n + 1) := by omega
      rw [h3, h4, Nat.add_div_right _ (by omega)]

/-- Concatenating the first components of the `partitionPos` chunks
gives back the first sequence. -/
theorem partitionPos_flatten_fst (n : Nat) (s1 s2 : List Char) :
    ((partitionPos n s1 s2).map Prod.fst).flatten = s1 := by
  induction s1, s2 using partitionPos.induct n with
  | case1 s2 => simp [partitionPos]
  | case2 c cs s2 ih =>
    rw [partitionPos]
    simp only [List.map_cons, List.flatten_cons, ih]
    exact List.take_append_drop (n + 1) (c :: cs)

/-- Concatenating the second components of the `partitionPos` chunks
gives back the second sequence, provided the sequences have equal
length. -/
theorem partitionPos_flatten_snd (n : Nat) (s1 s2 : List Char)
    (hlen : s1.length = s2.length) :
    ((partitionPos n s1 s2).map Prod.snd).flatten = s2 := by
  induction s1, s2 using partitionPos.induct n with
  | case1 s2 =>
    have : s2 = [] := by
      cases s2 with
      | nil => rfl
      | cons d ds => simp at hlen
    subst this
    simp [partitionPos]
  | case2 c cs s2 ih =>
    rw [partitionPos]
    have hlen' : (cs.drop n).length = (s2.drop (n + 1)).length := by
      simp only [List.length_drop]
      simp only [List.length_cons] at hlen
      omega
    simp only [List.map_cons, List.flatten_cons, ih hlen']
    exact List.take_append_drop (n + 1) s2

/-- A non-empty first sequence yields a non-empty chunk list. -/
theorem partitionPos_ne_nil (n : Nat) (s1 s2 : List Char) (h : s1 ≠ []) :
    partitionPos n s1 s2 ≠ [] := by
  cases s1 with
  | nil => exact absurd rfl h
  | cons c cs => simp [partitionPos]

/-- Every chunk before the last one holds exactly `n + 1` characters of
each sequence. -/
theorem partitionPos_dropLast_length (n : Nat) (s1 s2 : List Char)
    (hlen : s1.length = s2.length) :
    ∀ p ∈ (partitionPos n s1 s2).dropLast, p.1.length = n + 1 ∧ p.2.length = n + 1 := by
  induction s1, s2 using partitionPos.induct n with
  | case1 s2 => simp [partitionPos]
  | case2 c cs s2 ih =>
    intro p hp
    simp only [List.length_cons] at hlen
    by_cases hcs : cs.length ≤ n
    · have hdrop : cs.drop n = [] := List.drop_eq_nil_iff.mpr hcs
      rw [partitionPos, hdrop] at hp
      simp [partitionPos] at hp
    · have hdne : cs.drop n ≠ [] := by
        intro hd
        rw [List.drop_eq_nil_iff] at hd
        omega
      have hrest := partitionPos_ne_nil n (cs.drop n) (s2.drop (n + 1)) hdne
      rw [partitionPos, List.dropLast_cons_of_ne_nil hrest] at hp
      rcases List.mem_cons.mp hp with rfl | hmem
      · constructor
        · simp only [List.length_take, List.length_cons]
          omega
        · simp only [List.length_take]
          omega
      · have hlen' : (cs.drop n).length = (s2.drop (n + 1)).length := by
          simp only [List.length_drop]
          omega
        exact ih hlen' p hmem

/-- The last chunk of `partitionPos` holds the remainder of the
division: `length mod (n + 1)` characters, or `n + 1` when the chunk
size divides the length evenly. -/
theorem partitionPos_getLast_length (n : Nat) (s1 s2 : List Char)
    (hlen : s1.length = s2.length) (hne : s1 ≠ []) :
    ∀ p, (partitionPos n s1 s2).getLast? = some p →
      p.1.length = (if s1.length % (n + 1) = 0 then n + 1 else s1.length % (n + 1)) ∧
      p.2.length = (if s1.length % (n + 1) = 0 then n + 1 else s1.length % (n + 1)) := by
  induction s1, s2 using partitionPos.induct n with
  | case1 s2 => exact absurd rfl hne
  | case2 c cs s2 ih =>
    intro p hp
    simp only [List.length_cons] at hlen
    by_cases hcs : cs.length ≤ n
    · have hdrop : cs.drop n = [] := List.drop_eq_nil_iff.mpr hcs
      rw [partitionPos, hdrop] at hp
      simp only [partitionPos, List.getLast?_singleton, Option.some.injEq] at hp
      subst hp
      have hgoal : min (n + 1) (cs.length + 1) =
          (if (cs.length + 1) % (n + 1) = 0 then n + 1 else (cs.length + 1) % (n + 1)) := by
        by_cases h0 : (cs.length + 1) % (n + 1) = 0
        · have heq : cs.length + 1 = n + 1 := by
            rcases Nat.lt_or_ge (cs.length + 1) (n + 1) with hlt | hge
            · rw [Nat.mod_eq_of_lt hlt] at h0
              omega
            · omega
          rw [if_pos h0, heq]
          omega
        · have hlt : cs.length + 1 < n + 1 := by
            rcases Nat.lt_or_ge (cs.length + 1) (n + 1) with hlt | hge
            · exact hlt
            · have heq : cs.length + 1 = n + 1 := by omega
              rw [heq] at h0
              simp at h0
          rw [if_neg h0, Nat.mod_eq_of_lt hlt]
          omega
      refine ⟨?_, ?_⟩
      · simp only [List.length_cons, List.length_take]
        exact hgoal
      · simp only [List.length_cons, List.length_take, ← hlen]
        exact hgoal
    · have hdne : cs.drop n ≠ [] := by
        intro hd
        rw [List.drop_eq_nil_iff] at hd
        omega
      have hrest := partitionPos_ne_nil n (cs.drop n) (s2.drop (n + 1)) hdne
      rw [partitionPos] at hp
      obtain ⟨r, rs, hrr⟩ := List.exists_cons_of_ne_nil hrest
      rw [hrr, List.getLast?_cons_cons, ← hrr] at hp
      have hlen' : (cs.drop n).length = (s2.drop (n + 1)).length := by
        simp only [List.length_drop]
        omega
      have hmod : (cs.length + 1) % (n + 1) = (cs.drop n).length % (n + 1) := by
        have h4 : cs.length + 1 = (cs.length - n) + (n + 1) := by omega
        simp only [List.length_drop]
        rw [h4, Nat.add_mod_right]
      have := ih hlen' hdne p hp
      simp only [List.length_cons, hmod]
      exact this

/-- The chunk at position `k` of `partitionPos` covers characters
`(n + 1) * k` through `(n + 1) * (k + 1)` of both sequences. -/
theorem partitionPos_getElem? (n : Nat) :
    ∀ (k : Nat) (s1 s2 : List Char),
      (partitionPos n s1 s2)[k]? =
        if (n + 1) * k < s1.length then
          some ((s1.drop ((n + 1) * k)).take (n + 1),
                (s2.drop ((n + 1) * k)).take (n + 1))
        else none := by
  intro k
  induction k with
  | zero =>
    intro s1 s2
    cases s1 with
    | nil => simp [partitionPos]
    | cons c cs => simp [partitionPos]
  | succ k ih =>
    intro s1 s2
    cases s1 with
    | nil => simp [partitionPos]
    | cons c cs =>
      rw [partitionPos]
      simp only [List.getElem?_cons_succ]
      rw [ih]
      rw [List.drop_drop, List.drop_drop, List.length_drop, List.length_cons]
      have e2 : (n + 1) * (k + 1) = (n + (n + 1) * k) + 1 := by ring
      rw [e2, List.drop_succ_cons]
      have e3 : ((n + (n + 1) * k) + 1) = (n + 1) + (n + 1) * k := by ring
      rw [e3]
      by_cases hc : (n + 1) * k < cs.length - n
      · rw [if_pos hc, if_pos (by omega)]
      · rw [if_neg hc, if_neg (by omega)]

/-- The fuel-driven chunking loop agrees with `partitionPos` for the
positive chunk size `n + 1`, whenever the fuel exceeds the number of
characters still to cover. -/
theorem chunkLoopFuel_eq_partitionPos (n : Nat) (s1 s2 : List Char) :
    ∀ (fuel i : Nat) (acc : List (List Char × List Char)), s1.length - i < fuel →
      chunkLoopFuel s1 s2 (n + 1) fuel i acc =
        some (acc ++ partitionPos n (s1.drop i) (s2.drop i)) := by
  intro fuel
  induction fuel with
  | zero =>
    intro i acc h
    omega
  | succ fuel ih =>
    intro i acc h
    rw [chunkLoopFuel]
    by_cases hi : i < s1.length
    · rw [if_pos hi, ih (i + (n + 1)) _ (by omega)]
      have hdne : s1.drop i ≠ [] := by
        intro hd
        rw [List.drop_eq_nil_iff] at hd
        omega
      rw [partitionPos_cons n (s1.drop i) (s2.drop i) hdne]
      rw [List.drop_drop, List.drop_drop]
      simp [List.append_assoc]
    · rw [if_neg hi]
      have hd1 : s1.drop i = [] := List.drop_eq_nil_iff.mpr (by omega)
      rw [hd1]
      simp [partitionPos]

/-- For a positive chunk size, the chunking loop of `AlignmentBlock`
terminates and computes exactly `partitionPos (n - 1)`. -/
theorem chunksOf_eq_partitionPos (s1 s2 : List Char) (n : Nat) (hn : 0 < n) :
    chunksOf s1 s2 n = some (partitionPos (n - 1) s1 s2) := by
  obtain ⟨m, rfl⟩ : ∃ m, n = m + 1 := ⟨n - 1, by omega⟩
  unfold chunksOf
  rw [chunkLoopFuel_eq_partitionPos m s1 s2 (s1.length + 1) 0 [] (by omega)]
  simp

/-- C1: for equal-length sequences and a positive chunk size, the
chunking loop terminates and concatenating the first components of its
chunks in order rebuilds `seq1` exactly, and the second components
rebuild `seq2` exactly. -/
theorem chunks_roundtrip (s1 s2 : List Char) (n : Nat)
    (hlen : s1.length = s2.length) (hn : 0 < n) :
    ∃ cs, chunksOf s1 s2 n = some cs ∧
      (cs.map Prod.fst).flatten = s1 ∧ (cs.map Prod.snd).flatten = s2 :=
  ⟨partitionPos (n - 1) s1 s2, chunksOf_eq_partitionPos s1 s2 n hn,
   partitionPos_flatten_fst (n - 1) s1 s2,
   partitionPos_flatten_snd (n - 1) s1 s2 hlen⟩

/-- Witness for C1 at `seq1 = "ACDE"`, `seq2 = "ACDF"`, chunk size 2. -/
theorem chunks_roundtrip_witness :
    ∃ cs, chunksOf ['A', 'C', 'D', 'E'] ['A', 'C', 'D', 'F'] 2 = some cs ∧
      (cs.map Prod.fst).flatten = ['A', 'C', 'D', 'E'] ∧
      (cs.map Prod.snd).flatten = ['A', 'C', 'D', 'F'] :=
  chunks_roundtrip ['A', 'C', 'D', 'E'] ['A', 'C', 'D', 'F'] 2 (by decide) (by decide)

/-- C2: for equal-length sequences and a positive chunk size `n`, the
loop yields exactly `ceil(len / n)` chunks; every chunk before the last
holds `n` characters of each sequence, and the last holds `len mod n`
characters, or `n` when `n` divides `len` evenly. -/
theorem chunks_count_and_sizes (s1 s2 : List Char) (n : Nat)
    (hlen : s1.length = s2.length) (hn : 0 < n) :
    ∃ cs, chunksOf s1 s2 n = some cs ∧
      cs.length = (s1.length + n - 1) / n ∧
      (∀ p ∈ cs.dropLast, p.1.length = n ∧ p.2.length = n) ∧
      (∀ p, cs.getLast? = some p →
        p.1.length = (if s1.length % n = 0 then n else s1.length % n) ∧
        p.2.length = (if s1.length % n = 0 then n else s1.length % n)) := by
  obtain ⟨m, rfl⟩ : ∃ m, n = m + 1 := ⟨n - 1, by omega⟩
  refine ⟨partitionPos m s1 s2, ?_, ?_, ?_, ?_⟩
  · simpa using chunksOf_eq_partitionPos s1 s2 (m + 1) (by omega)
  · rw [partitionPos_length]
    have hnum : s1.length + (m + 1) - 1 = s1.length + m := by omega
    rw [hnum]
  · exact partitionPos_dropLast_length m s1 s2 hlen
  · intro p hp
    have hne : s1 ≠ [] := by
      intro h0
      subst h0
      simp [partitionPos] at hp
    exact partitionPos_getLast_length m s1 s2 hlen hne p hp

/-- Witness for C2 at `seq1 = "ACDEF"`, `seq2 = "ACDFG"`, chunk size 2:
3 chunks, the first two of width 2 and the last of width 1. -/
theorem chunks_count_and_sizes_witness :
    ∃ cs, chunksOf ['A', 'C', 'D', 'E', 'F'] ['A', 'C', 'D', 'F', 'G'] 2 = some cs ∧
      cs.length = (['A', 'C', 'D', 'E', 'F'].length + 2 - 1) / 2 ∧
      (∀ p ∈ cs.dropLast, p.1.length = 2 ∧ p.2.length = 2) ∧
      (∀ p, cs.getLast? = some p →
        p.1.length = (if ['A', 'C', 'D', 'E', 'F'].length % 2 = 0 then 2
          else ['A', 'C', 'D', 'E', 'F'].length % 2) ∧
        p.2.length = (if ['A', 'C', 'D', 'E', 'F'].length % 2 = 0 then 2
          else ['A', 'C', 'D', 'E', 'F'].length % 2)) :=
  chunks_count_and_sizes ['A', 'C', 'D', 'E', 'F'] ['A', 'C', 'D', 'F', 'G'] 2
    (by decide) (by decide)

/-- C3: the mismatch flag computed from the full sequences at position
`i` equals the mismatch flag computed inside the chunk containing `i`
(chunk number `i / n`) at the local offset `i % n`: chunk boundaries
never affect the mismatch computation. -/
theorem mismatch_chunk_invariant (s1 s2 : List Char) (n i : Nat)
    (_hlen : s1.length = s2.length) (hn : 0 < n) (hi : i < s1.length) :
    ∃ cs p, chunksOf s1 s2 n = some cs ∧ cs[i / n]? = some p ∧
      mismatchFlag p.1 p.2 (i % n) = mismatchFlag s1 s2 i := by
  obtain ⟨m, rfl⟩ : ∃ m, n = m + 1 := ⟨n - 1, by omega⟩
  have hle : (m + 1) * (i / (m + 1)) ≤ i := by
    calc (m + 1) * (i / (m + 1)) = i / (m + 1) * (m + 1) := Nat.mul_comm _ _
    _ ≤ i := Nat.div_mul_le_self i (m + 1)
  have hcond : (m + 1) * (i / (m + 1)) < s1.length := lt_of_le_of_lt hle hi
  refine ⟨partitionPos m s1 s2,
    ((s1.drop ((m + 1) * (i / (m + 1)))).take (m + 1),
     (s2.drop ((m + 1) * (i / (m + 1)))).take (m + 1)), ?_, ?_, ?_⟩
  · simpa using chunksOf_eq_partitionPos s1 s2 (m + 1) (by omega)
  · rw [partitionPos_getElem?, if_pos hcond]
  · unfold mismatchFlag
    have hmod : i % (m + 1) < m + 1 := Nat.mod_lt _ (by omega)
    rw [List.getElem?_take_of_lt hmod, List.getElem?_take_of_lt hmod,
      List.getElem?_drop, List.getElem?_drop, Nat.div_add_mod i (m + 1)]

/-- C6: the seq1 color lookup is total over the 20 standard amino-acid
letters — each maps to some fixed hex color, never the transparent
fallback — and every character outside the map, notably the gap symbol,
renders transparent. -/
theorem colorForSeq1Char_total (c : Char) :
    (c ∈ standardAminoAcids →
      ∃ col, COLOR_MAP.lookup c = some col ∧ colorForSeq1Char c = col ∧
        col ≠ "transparent") ∧
    (c ∉ standardAminoAcids → colorForSeq1Char c = "transparent") := by
  constructor
  · intro hc
    simp only [standardAminoAcids] at hc
    fin_cases hc <;> exact ⟨_, rfl, rfl, by decide⟩
  · intro hc
    have hnone : COLOR_MAP.lookup c = none := by
      rw [List.lookup_eq_none_iff]
      intro p hp
      simp only [standardAminoAcids, List.mem_cons, List.not_mem_nil, or_false,
        not_or] at hc
      simp only [COLOR_MAP, List.mem_cons, List.not_mem_nil, or_false] at hp
      rcases hp with h | h | h | h | h | h | h | h | h | h |
        h | h | h | h | h | h | h | h | h | h <;>
        subst h <;> simp_all
    simp [colorForSeq1Char, hnone]

/-- Witness for C6 at the letter A and at the gap symbol. -/
theorem colorForSeq1Char_total_witness :
    (∃ col, COLOR_MAP.lookup 'A' = some col ∧ colorForSeq1Char 'A' = col ∧
      col ≠ "transparent") ∧
    colorForSeq1Char '-' = "transparent" :=
  ⟨(colorForSeq1Char_total 'A').1 (by decide),
   (colorForSeq1Char_total '-').2 (by decide)⟩

/-- Witness for C3 at `seq1 = "ACDE"`, `seq2 = "ACDF"`, chunk size 2,
position 3 (the mismatching E/F pair, local offset 1 of chunk 1). -/
theorem mismatch_chunk_invariant_witness :
    ∃ cs p, chunksOf ['A', 'C', 'D', 'E'] ['A', 'C', 'D', 'F'] 2 = some cs ∧
      cs[3 / 2]? = some p ∧
      mismatchFlag p.1 p.2 (3 % 2) = mismatchFlag ['A', 'C', 'D', 'E'] ['A', 'C', 'D', 'F'] 3 :=
  mismatch_chunk_invariant ['A', 'C', 'D', 'E'] ['A', 'C', 'D', 'F'] 2 3
    (by decide) (by decide) (by decide)

end Bcd
